import Mathlib

/-!
Shallow embedding of the pymonoprice control-protocol client
(`pymonoprice/__init__.py`): command encoding, the incremental
end-of-line-marker counter, status-line parsing, and the wire
request/response loops of the blocking and suspending sessions.

Byte and character sequences are modelled as `List Char` (all protocol
traffic is ASCII).  The serial port of the blocking session is modelled
by the list of bytes it will deliver, one per `read(1)` call; exhaustion
of that list models the read timeout.  The suspending session's inbound
queue is modelled by the list of chunks it will deliver.
-/

abbrev Buf := List Char

/-- `EOL = b"\r\n#"` from the source. -/
def EOL : Buf := ['\r', '\n', '#']

/-- `sequence.find(sub, start)` matches `sub` at position `i`. -/
def matchesAt (sequence sub : Buf) (i : Nat) : Bool :=
  (sequence.drop i).take sub.length == sub

/-- Fuel-driven scan for the leftmost match position, `i` upwards. -/
def bfindAux (sequence sub : Buf) : Nat → Nat → Option Nat
  | _, 0 => none
  | i, fuel + 1 =>
    if matchesAt sequence sub i then some i else bfindAux sequence sub (i + 1) fuel

/-- Python's `sequence.find(sub, start)` (candidate positions `start..len`). -/
def bfind (sequence sub : Buf) (start : Nat) : Option Nat :=
  bfindAux sequence sub start (sequence.length + 1 - start)

/-- The `while True` loop of `_subsequence_count`: find the next match at or
after `start`, resume right after its end, bump the count.  The fuel is an
upper bound on the number of iterations (sufficient for nonempty `sub`). -/
def scLoop (sequence sub : Buf) : Nat → Nat → Nat → Nat × Nat
  | 0, start, count => (start, count)
  | fuel + 1, start, count =>
    match bfind sequence sub start with
    | none => (start, count)
    | some idx => scLoop sequence sub fuel (idx + sub.length) (count + 1)

/-- `_subsequence_count(sequence, sub, previous)` from the source:
`start, count = previous or (0, 0)`, then repeatedly `find` and resume
after the end of each found occurrence. -/
def _subsequence_count (sequence sub : Buf) (previous : Option (Nat × Nat)) : Nat × Nat :=
  scLoop sequence sub (sequence.length + 1) (previous.getD (0, 0)).1 (previous.getD (0, 0)).2

/-- Number of counted `EOL` markers in a buffer, scanned from scratch. -/
def countEOL (s : Buf) : Nat := (_subsequence_count s EOL none).2

/-! ## Status decoding (`ZONE_PATTERN`, `ZoneStatus.from_string`, `ZoneStatus.from_strings`) -/

/-- `\d` followed by `int()`: a decimal digit character's value. -/
def digitVal (c : Char) : Option Nat :=
  if c.isDigit then some (c.toNat - 48) else none

/-- One `(\d\d)` group of `ZONE_PATTERN`, with the rest of the input. -/
def twoDigit : Buf → Option (Nat × Buf)
  | c1 :: c2 :: rest =>
    match digitVal c1, digitVal c2 with
    | some d1, some d2 => some (d1 * 10 + d2, rest)
    | _, _ => none
  | _ => none

/-- `ZoneStatus` dataclass: the eleven fields parsed from a status line. -/
structure ZoneStatus where
  zone : Int
  pa : Bool
  power : Bool
  mute : Bool
  do_not_disturb : Bool
  volume : Int
  treble : Int
  bass : Int
  balance : Int
  source : Int
  keypad : Bool
  deriving DecidableEq, Repr

/-- Match `ZONE_PATTERN` (`>` then eleven `(\d\d)` groups) at the head of the
input, building the `ZoneStatus` exactly as `from_string` does: `int` on each
group, `bool` on the flag groups. -/
def matchZoneAt : Buf → Option ZoneStatus
  | [] => none
  | c :: r0 =>
    if c = '>' then
      (twoDigit r0).bind fun (zone, r1) =>
      (twoDigit r1).bind fun (pa, r2) =>
      (twoDigit r2).bind fun (power, r3) =>
      (twoDigit r3).bind fun (mute, r4) =>
      (twoDigit r4).bind fun (dnd, r5) =>
      (twoDigit r5).bind fun (volume, r6) =>
      (twoDigit r6).bind fun (treble, r7) =>
      (twoDigit r7).bind fun (bass, r8) =>
      (twoDigit r8).bind fun (balance, r9) =>
      (twoDigit r9).bind fun (source, r10) =>
      (twoDigit r10).map fun (keypad, _) =>
        ZoneStatus.mk (Int.ofNat zone) (pa != 0) (power != 0) (mute != 0) (dnd != 0)
          (Int.ofNat volume) (Int.ofNat treble) (Int.ofNat bass) (Int.ofNat balance)
          (Int.ofNat source) (keypad != 0)
    else none

/-- `re.search(ZONE_PATTERN, string)`: try the pattern at every position,
left to right, returning the leftmost full match. -/
def searchZone : Buf → Option ZoneStatus
  | [] => none
  | c :: rest =>
    match matchZoneAt (c :: rest) with
    | some z => some z
    | none => searchZone rest

/-- `ZoneStatus.from_string`: `None` on empty input, else search the pattern
anywhere in the string. -/
def from_string (string : Buf) : Option ZoneStatus :=
  if string = [] then none else searchZone string

/-- `ZoneStatus.from_strings`: keep, in order, the successful parses. -/
def from_strings (strings : List Buf) : List ZoneStatus :=
  if strings = [] then [] else strings.filterMap from_string

/-! ## Command encoding (`_format_*` helpers) -/

/-- `"{}".format(z)` for an integer. -/
def intChars (z : Int) : Buf := (toString z).toList

/-- `"{:02}".format(n)` for a non-negative integer. -/
def pad2 (n : Nat) : Buf :=
  if n < 10 then '0' :: (toString n).toList else (toString n).toList

def _format_zone_status_request (zone : Int) : Buf :=
  '?' :: intChars zone ++ ['\r']

def _format_all_zones_status_request (unit : Int) : Buf :=
  '?' :: intChars (unit * 10) ++ ['\r']

def _format_set_power (zone : Int) (power : Bool) : Buf :=
  '<' :: intChars zone ++ ['P', 'R'] ++ (if power then ['0', '1'] else ['0', '0']) ++ ['\r']

def _format_set_mute (zone : Int) (mute : Bool) : Buf :=
  '<' :: intChars zone ++ ['M', 'U'] ++ (if mute then ['0', '1'] else ['0', '0']) ++ ['\r']

def _format_set_volume (zone : Int) (volume : Int) : Buf :=
  '<' :: intChars zone ++ ['V', 'O'] ++ pad2 (max 0 (min volume 38)).toNat ++ ['\r']

def _format_set_treble (zone : Int) (treble : Int) : Buf :=
  '<' :: intChars zone ++ ['T', 'R'] ++ pad2 (max 0 (min treble 14)).toNat ++ ['\r']

def _format_set_bass (zone : Int) (bass : Int) : Buf :=
  '<' :: intChars zone ++ ['B', 'S'] ++ pad2 (max 0 (min bass 14)).toNat ++ ['\r']

def _format_set_balance (zone : Int) (balance : Int) : Buf :=
  '<' :: intChars zone ++ ['B', 'L'] ++ pad2 (max 0 (min balance 20)).toNat ++ ['\r']

def _format_set_source (zone : Int) (source : Int) : Buf :=
  '<' :: intChars zone ++ ['C', 'H'] ++ pad2 (max 1 (min source 6)).toNat ++ ['\r']

/-! ## Python's `str.split(sep)` on character lists -/

def splitFuel (sep : Buf) : Nat → Buf → List Buf
  | 0, s => [s]
  | fuel + 1, s =>
    match bfind s sep 0 with
    | none => [s]
    | some i => s.take i :: splitFuel sep fuel (s.drop (i + sep.length))

def splitOnList (s sep : Buf) : List Buf := splitFuel sep (s.length + 1) s

/-! ## Blocking session (`Monoprice._process_request` and the facade) -/

/-- The receive loop of `_process_request`: read one byte at a time, append it
to `result`, recount the EOL markers incrementally, stop once the count
reaches `num_eols_to_read`.  An exhausted port (`read(1)` returning no byte)
raises the timeout, whose payload records the bytes received so far. -/
def readUntil : Buf → Buf → Option (Nat × Nat) → Nat → Except Buf (Buf × Buf)
  | [], acc, _, _ => .error acc
  | c :: rest, acc, st, n =>
    if n ≤ (_subsequence_count (acc ++ [c]) EOL st).2 then .ok (acc ++ [c], rest)
    else readUntil rest (acc ++ [c]) (some (_subsequence_count (acc ++ [c]) EOL st)) n

/-- `Monoprice.zone_status`: send the query, read until 2 EOLs, parse.
The first component lists the requests written to the wire. -/
def Monoprice.zone_status (zone : Int) (incoming : Buf) :
    List Buf × Except Buf (Option ZoneStatus) :=
  ([_format_zone_status_request zone],
    (readUntil incoming [] none 2).map fun pr => from_string pr.1)

/-- `Monoprice.all_zone_status`: guard the unit range, else send the query,
read until 7 EOLs, split on EOL and bulk-parse. -/
def Monoprice.all_zone_status (unit : Int) (incoming : Buf) :
    List Buf × Except Buf (List ZoneStatus) :=
  if unit < 1 ∨ 3 < unit then ([], .ok [])
  else
    ([_format_all_zones_status_request unit],
      (readUntil incoming [] none 7).map fun pr => from_strings (splitOnList pr.1 EOL))

/-- `Monoprice.set_power`: send and read until 1 EOL; the `ok` payload is the
wire bytes left undelivered, so successive commands can be chained. -/
def Monoprice.set_power (zone : Int) (power : Bool) (incoming : Buf) :
    List Buf × Except Buf Buf :=
  ([_format_set_power zone power], (readUntil incoming [] none 1).map fun pr => pr.2)

def Monoprice.set_mute (zone : Int) (mute : Bool) (incoming : Buf) :
    List Buf × Except Buf Buf :=
  ([_format_set_mute zone mute], (readUntil incoming [] none 1).map fun pr => pr.2)

def Monoprice.set_volume (zone volume : Int) (incoming : Buf) :
    List Buf × Except Buf Buf :=
  ([_format_set_volume zone volume], (readUntil incoming [] none 1).map fun pr => pr.2)

def Monoprice.set_treble (zone treble : Int) (incoming : Buf) :
    List Buf × Except Buf Buf :=
  ([_format_set_treble zone treble], (readUntil incoming [] none 1).map fun pr => pr.2)

def Monoprice.set_bass (zone bass : Int) (incoming : Buf) :
    List Buf × Except Buf Buf :=
  ([_format_set_bass zone bass], (readUntil incoming [] none 1).map fun pr => pr.2)

def Monoprice.set_balance (zone balance : Int) (incoming : Buf) :
    List Buf × Except Buf Buf :=
  ([_format_set_balance zone balance], (readUntil incoming [] none 1).map fun pr => pr.2)

def Monoprice.set_source (zone source : Int) (incoming : Buf) :
    List Buf × Except Buf Buf :=
  ([_format_set_source zone source], (readUntil incoming [] none 1).map fun pr => pr.2)

/-- The seven requests `restore_zone` replays, in source order. -/
def restoreRequests (status : ZoneStatus) : List Buf :=
  [_format_set_power status.zone status.power,
   _format_set_mute status.zone status.mute,
   _format_set_volume status.zone status.volume,
   _format_set_treble status.zone status.treble,
   _format_set_bass status.zone status.bass,
   _format_set_balance status.zone status.balance,
   _format_set_source status.zone status.source]

/-- Replay a list of set commands: each one is written to the wire and then
one EOL is read; the first timeout aborts the rest and propagates. -/
def runSets : List Buf → Buf → List Buf × Except Buf Unit
  | [], _ => ([], .ok ())
  | r :: rs, incoming =>
    match readUntil incoming [] none 1 with
    | .error e => ([r], .error e)
    | .ok pr => (r :: (runSets rs pr.2).1, (runSets rs pr.2).2)

/-- `Monoprice.restore_zone`: replay the seven setters in order. -/
def Monoprice.restore_zone (status : ZoneStatus) (incoming : Buf) :
    List Buf × Except Buf Unit :=
  runSets (restoreRequests status) incoming

/-! ## Suspending session (`MonopriceProtocol.send`, `MonopriceAsync`) -/

/-- The receive loop of `MonopriceProtocol.send`: append whole queued chunks,
recount incrementally, stop at `num_eols_to_read`; an exhausted queue models
`asyncio.wait_for` timing out. -/
def readChunks : List Buf → Buf → Option (Nat × Nat) → Nat → Except Buf (Buf × List Buf)
  | [], acc, _, _ => .error acc
  | ch :: rest, acc, st, n =>
    if n ≤ (_subsequence_count (acc ++ ch) EOL st).2 then .ok (acc ++ ch, rest)
    else readChunks rest (acc ++ ch) (some (_subsequence_count (acc ++ ch) EOL st)) n

/-- `MonopriceProtocol.send`: on timeout the bare `asyncio.TimeoutError` is
re-raised (`Except Unit`), and the request together with the bytes received
so far is written to the error log (the first component). -/
def MonopriceProtocol.send (request : Buf) (chunks : List Buf) (num_eols_to_read : Nat) :
    List (Buf × Buf) × Except Unit (Buf × List Buf) :=
  match readChunks chunks [] none num_eols_to_read with
  | .error received => ([(request, received)], .error ())
  | .ok pr => ([], .ok pr)

/-- `MonopriceAsync.all_zone_status`: same unit guard as the blocking facade;
the first component lists the requests written to the transport. -/
def MonopriceAsync.all_zone_status (unit : Int) (chunks : List Buf) :
    List Buf × Except Unit (List ZoneStatus) :=
  if unit < 1 ∨ 3 < unit then ([], .ok [])
  else
    ([_format_all_zones_status_request unit],
      (MonopriceProtocol.send (_format_all_zones_status_request unit) chunks 7).2.map
        fun pr => from_strings (splitOnList pr.1 EOL))

/-- Replay set commands over the suspending session, one EOL each. -/
def runSetsAsync : List Buf → List Buf → List Buf × Except Unit Unit
  | [], _ => ([], .ok ())
  | r :: rs, chunks =>
    match readChunks chunks [] none 1 with
    | .error _ => ([r], .error ())
    | .ok pr => (r :: (runSetsAsync rs pr.2).1, (runSetsAsync rs pr.2).2)

/-- `MonopriceAsync.restore_zone`: the seven sends in source order. -/
def MonopriceAsync.restore_zone (status : ZoneStatus) (chunks : List Buf) :
    List Buf × Except Unit Unit :=
  runSetsAsync (restoreRequests status) chunks

/-! ## Synthetic status lines (for stating parser properties) -/

/-- The two ASCII digits of a value below 100, most significant first. -/
def digits2 (n : Nat) : Buf := [Char.ofNat (48 + n / 10), Char.ofNat (48 + n % 10)]

/-- A status line: `>` followed by eleven two-digit groups, then a tail. -/
def zoneLine (g1 g2 g3 g4 g5 g6 g7 g8 g9 g10 g11 : Nat) (r : Buf) : Buf :=
  '>' :: (digits2 g1 ++ (digits2 g2 ++ (digits2 g3 ++ (digits2 g4 ++ (digits2 g5 ++
    (digits2 g6 ++ (digits2 g7 ++ (digits2 g8 ++ (digits2 g9 ++ (digits2 g10 ++
      (digits2 g11 ++ r)))))))))))

/-! ## Properties of the marker scan -/

theorem matchesAt_length {sequence sub : Buf} {i : Nat} (hsub : sub ≠ [])
    (h : matchesAt sequence sub i = true) : i + sub.length ≤ sequence.length := by
  have he : (sequence.drop i).take sub.length = sub := by
    simpa [matchesAt] using h
  have hlen : ((sequence.drop i).take sub.length).length = sub.length := by rw [he]
  rw [List.length_take, List.length_drop] at hlen
  have hpos : 0 < sub.length := List.length_pos.mpr hsub
  omega

theorem matchesAt_append {pre sub ext : Buf} {i : Nat}
    (h : matchesAt pre sub i = true) : matchesAt (pre ++ ext) sub i = true := by
  by_cases hsub : sub = []
  · subst hsub; simp [matchesAt]
  · have hle := matchesAt_length hsub h
    have he : (pre.drop i).take sub.length = sub := by simpa [matchesAt] using h
    have hdrop : (pre ++ ext).drop i = pre.drop i ++ ext :=
      List.drop_append_of_le_length (by omega)
    have htake : (pre.drop i ++ ext).take sub.length = (pre.drop i).take sub.length :=
      List.take_append_of_le_length (by rw [List.length_drop]; omega)
    simp [matchesAt, hdrop, htake, he]

theorem matchesAt_restrict {pre sub ext : Buf} {i : Nat}
    (h : matchesAt (pre ++ ext) sub i = true) (hle : i + sub.length ≤ pre.length) :
    matchesAt pre sub i = true := by
  have hdrop : (pre ++ ext).drop i = pre.drop i ++ ext :=
    List.drop_append_of_le_length (by omega)
  have htake : (pre.drop i ++ ext).take sub.length = (pre.drop i).take sub.length :=
    List.take_append_of_le_length (by rw [List.length_drop]; omega)
  simpa [matchesAt, hdrop, htake] using h

theorem bfindAux_eq_some {sequence sub : Buf} :
    ∀ (fuel i j : Nat), bfindAux sequence sub i fuel = some j ↔
      (i ≤ j ∧ j < i + fuel ∧ matchesAt sequence sub j = true ∧
        ∀ k, i ≤ k → k < j → matchesAt sequence sub k = false) := by
  intro fuel
  induction fuel with
  | zero =>
    intro i j
    simp only [bfindAux]
    constructor
    · intro h; exact Option.noConfusion h
    · rintro ⟨h1, h2, _, _⟩; omega
  | succ fuel ih =>
    intro i j
    rw [bfindAux]
    by_cases hm : matchesAt sequence sub i = true
    · rw [if_pos hm]
      constructor
      · intro h
        have hij : i = j := by injection h
        subst hij
        exact ⟨le_refl _, by omega, hm, fun k hk1 hk2 => by omega⟩
      · rintro ⟨h1, h2, h3, h4⟩
        by_cases hij : i = j
        · rw [hij]
        · have hfalse := h4 i (le_refl _) (by omega)
          rw [hm] at hfalse; exact Bool.noConfusion hfalse
    · rw [if_neg hm]
      rw [ih]
      have hmf : matchesAt sequence sub i = false := by
        cases hx : matchesAt sequence sub i with
        | true => exact absurd hx hm
        | false => rfl
      constructor
      · rintro ⟨h1, h2, h3, h4⟩
        refine ⟨by omega, by omega, h3, fun k hk1 hk2 => ?_⟩
        by_cases hki : k = i
        · rw [hki]; exact hmf
        · exact h4 k (by omega) hk2
      · rintro ⟨h1, h2, h3, h4⟩
        have hij : i ≠ j := by
          rintro rfl; rw [hmf] at h3; exact Bool.noConfusion h3
        exact ⟨by omega, by omega, h3, fun k hk1 hk2 => h4 k (by omega) hk2⟩

theorem bfind_eq_some {sequence sub : Buf} {start j : Nat} (hsub : sub ≠ []) :
    bfind sequence sub start = some j ↔
      (start ≤ j ∧ matchesAt sequence sub j = true ∧
        ∀ k, start ≤ k → k < j → matchesAt sequence sub k = false) := by
  rw [bfind, bfindAux_eq_some]
  constructor
  · rintro ⟨h1, h2, h3, h4⟩; exact ⟨h1, h3, h4⟩
  · rintro ⟨h1, h2, h3⟩
    have hlen := matchesAt_length hsub h2
    have hpos : 0 < sub.length := List.length_pos.mpr hsub
    exact ⟨h1, by omega, h2, h3⟩

theorem bfind_none_of_lt {sequence sub : Buf} {start : Nat}
    (h : sequence.length < start) : bfind sequence sub start = none := by
  rw [bfind, show sequence.length + 1 - start = 0 by omega]
  rfl

theorem bfind_bounds {sequence sub : Buf} {start j : Nat} (hsub : sub ≠ [])
    (h : bfind sequence sub start = some j) :
    start ≤ j ∧ j + sub.length ≤ sequence.length := by
  rw [bfind_eq_some hsub] at h
  exact ⟨h.1, matchesAt_length hsub h.2.1⟩

theorem bfind_append {pre sub ext : Buf} {start idx : Nat} (hsub : sub ≠ [])
    (h : bfind pre sub start = some idx) : bfind (pre ++ ext) sub start = some idx := by
  rw [bfind_eq_some hsub] at h
  obtain ⟨h1, h2, h3⟩ := h
  have hidx := matchesAt_length hsub h2
  rw [bfind_eq_some hsub]
  refine ⟨h1, matchesAt_append h2, fun k hk1 hk2 => ?_⟩
  cases hmk : matchesAt (pre ++ ext) sub k with
  | false => rfl
  | true =>
    have hpos : 0 < sub.length := List.length_pos.mpr hsub
    have hkle : k + sub.length ≤ pre.length := by omega
    have hres := matchesAt_restrict hmk hkle
    rw [h3 k hk1 hk2] at hres
    exact Bool.noConfusion hres

theorem scLoop_fuel_succ {sequence sub : Buf} (hsub : sub ≠ []) :
    ∀ (fuel start count : Nat), sequence.length + 1 - start ≤ fuel →
      scLoop sequence sub (fuel + 1) start count = scLoop sequence sub fuel start count := by
  intro fuel
  induction fuel with
  | zero =>
    intro start count h
    have hb : bfind sequence sub start = none := bfind_none_of_lt (by omega)
    conv_lhs => rw [scLoop, hb]
    rfl
  | succ fuel ih =>
    intro start count h
    cases hb : bfind sequence sub start with
    | none => rw [scLoop, hb, scLoop, hb]
    | some idx =>
      have hbd := bfind_bounds hsub hb
      have hpos : 0 < sub.length := List.length_pos.mpr hsub
      rw [scLoop, hb, scLoop, hb]
      exact ih (idx + sub.length) (count + 1) (by omega)

theorem scLoop_fuel_ge {sequence sub : Buf} (hsub : sub ≠ []) {f1 f2 start count : Nat}
    (h1 : sequence.length + 1 - start ≤ f1) (h2 : f1 ≤ f2) :
    scLoop sequence sub f2 start count = scLoop sequence sub f1 start count := by
  obtain ⟨k, rfl⟩ := Nat.le.dest h2
  induction k with
  | zero => rfl
  | succ k ih =>
    rw [show f1 + (k + 1) = (f1 + k) + 1 by omega, scLoop_fuel_succ hsub _ _ _ (by omega)]
    exact ih (by omega)

theorem scLoop_count_add {sequence sub : Buf} :
    ∀ (fuel start c k : Nat),
      scLoop sequence sub fuel start (c + k) =
        ((scLoop sequence sub fuel start c).1, (scLoop sequence sub fuel start c).2 + k) := by
  intro fuel
  induction fuel with
  | zero => intro start c k; rfl
  | succ fuel ih =>
    intro start c k
    cases hb : bfind sequence sub start with
    | none => rw [scLoop, hb, scLoop, hb]
    | some idx =>
      rw [scLoop, hb, scLoop, hb, show c + k + 1 = (c + 1) + k by omega]
      exact ih (idx + sub.length) (c + 1) k

theorem subseq_resume {sub : Buf} (hsub : sub ≠ []) (pre ext : Buf) :
    _subsequence_count (pre ++ ext) sub (some (_subsequence_count pre sub none)) =
      _subsequence_count (pre ++ ext) sub none := by
  suffices h : ∀ (fuel start count : Nat), pre.length + 1 - start ≤ fuel →
      scLoop (pre ++ ext) sub ((pre ++ ext).length + 1)
          (scLoop pre sub fuel start count).1 (scLoop pre sub fuel start count).2 =
        scLoop (pre ++ ext) sub ((pre ++ ext).length + 1) start count by
    have := h (pre.length + 1) 0 0 (by omega)
    simpa [_subsequence_count] using this
  intro fuel
  induction fuel with
  | zero => intro start count h; rfl
  | succ fuel ih =>
    intro start count h
    cases hb : bfind pre sub start with
    | none =>
      have hstep : scLoop pre sub (fuel + 1) start count = (start, count) := by
        rw [scLoop, hb]
      rw [hstep]
    | some idx =>
      have hbd := bfind_bounds hsub hb
      have hpos : 0 < sub.length := List.length_pos.mpr hsub
      have hbf : bfind (pre ++ ext) sub start = some idx := bfind_append hsub hb
      have hstep : scLoop pre sub (fuel + 1) start count
          = scLoop pre sub fuel (idx + sub.length) (count + 1) := by
        rw [scLoop, hb]
      rw [hstep, ih (idx + sub.length) (count + 1) (by omega)]
      have hfull : scLoop (pre ++ ext) sub ((pre ++ ext).length + 1) start count
          = scLoop (pre ++ ext) sub ((pre ++ ext).length) (idx + sub.length) (count + 1) := by
        rw [scLoop, hbf]
      rw [hfull]
      exact scLoop_fuel_succ hsub ((pre ++ ext).length) (idx + sub.length) (count + 1) (by omega)

theorem EOL_ne_nil : EOL ≠ [] := by decide

theorem countEOL_prefix_le (pre ext : Buf) : countEOL pre ≤ countEOL (pre ++ ext) := by
  have hres := subseq_resume EOL_ne_nil pre ext
  have hL : _subsequence_count (pre ++ ext) EOL (some (_subsequence_count pre EOL none))
      = scLoop (pre ++ ext) EOL ((pre ++ ext).length + 1)
          (_subsequence_count pre EOL none).1 (_subsequence_count pre EOL none).2 := rfl
  have hadd := @scLoop_count_add (pre ++ ext) EOL
      ((pre ++ ext).length + 1) (_subsequence_count pre EOL none).1 0
      (_subsequence_count pre EOL none).2
  rw [Nat.zero_add] at hadd
  unfold countEOL
  rw [← hres, hL, hadd]
  exact Nat.le_add_left _ _

theorem countEOL_mono {p q : Buf} (h : p <+: q) : countEOL p ≤ countEOL q := by
  obtain ⟨t, rfl⟩ := h
  exact countEOL_prefix_le p t

/-! ## Properties of the blocking receive loop -/

theorem readUntil_error :
    ∀ (inc acc : Buf) (st : Option (Nat × Nat)) (n : Nat) (bs : Buf),
      readUntil inc acc st n = .error bs → bs = acc ++ inc := by
  intro inc
  induction inc with
  | nil =>
    intro acc st n bs h
    rw [readUntil] at h
    injection h with h
    rw [← h, List.append_nil]
  | cons c rest ih =>
    intro acc st n bs h
    rw [readUntil] at h
    by_cases hcond : n ≤ (_subsequence_count (acc ++ [c]) EOL st).2
    · rw [if_pos hcond] at h
      exact Except.noConfusion h
    · rw [if_neg hcond] at h
      rw [ih (acc ++ [c]) _ n bs h]
      simp

theorem readUntil_ok {n : Nat} :
    ∀ (inc acc : Buf), countEOL acc < n →
      ∀ resp rest,
        readUntil inc acc (some (_subsequence_count acc EOL none)) n = .ok (resp, rest) →
        acc <+: resp ∧ resp ++ rest = acc ++ inc ∧ n ≤ countEOL resp ∧
          ∀ p, p <+: resp → p ≠ resp → countEOL p < n := by
  intro inc
  induction inc with
  | nil =>
    intro acc hacc resp rest h
    rw [readUntil] at h
    exact Except.noConfusion h
  | cons c rest0 ih =>
    intro acc hacc resp rest h
    rw [readUntil, subseq_resume EOL_ne_nil acc [c]] at h
    by_cases hcond : n ≤ (_subsequence_count (acc ++ [c]) EOL none).2
    · rw [if_pos hcond] at h
      injection h with h
      have h1 : acc ++ [c] = resp := congrArg Prod.fst h
      have h2 : rest0 = rest := congrArg Prod.snd h
      subst h1; subst h2
      refine ⟨List.prefix_append acc [c], by simp, hcond, ?_⟩
      intro p hp hne
      have hlen : p.length < (acc ++ [c]).length :=
        lt_of_le_of_ne hp.length_le (fun heq => hne (hp.eq_of_length heq))
      have hlc : (acc ++ [c]).length = acc.length + 1 := by simp
      have hpacc : p <+: acc :=
        List.prefix_of_prefix_length_le hp (List.prefix_append acc [c]) (by omega)
      exact lt_of_le_of_lt (countEOL_mono hpacc) hacc
    · rw [if_neg hcond] at h
      obtain ⟨hpre, heq, hcount, hmin⟩ := ih (acc ++ [c]) (not_le.mp hcond) resp rest h
      refine ⟨(List.prefix_append acc [c]).trans hpre, ?_, hcount, hmin⟩
      rw [heq]; simp

theorem readUntil_timeout {n : Nat} :
    ∀ (inc acc : Buf), countEOL (acc ++ inc) < n →
      readUntil inc acc (some (_subsequence_count acc EOL none)) n = .error (acc ++ inc) := by
  intro inc
  induction inc with
  | nil =>
    intro acc hacc
    rw [readUntil, List.append_nil]
  | cons c rest ih =>
    intro acc hacc
    rw [readUntil, subseq_resume EOL_ne_nil acc [c]]
    have hps : acc ++ [c] <+: acc ++ c :: rest := ⟨rest, by simp⟩
    have hc2 : countEOL (acc ++ [c]) < n := lt_of_le_of_lt (countEOL_mono hps) hacc
    have hc2' : ¬ n ≤ (_subsequence_count (acc ++ [c]) EOL none).2 := not_le.mpr hc2
    rw [if_neg hc2']
    rw [ih (acc ++ [c]) (by simpa using hacc)]
    simp

theorem readUntil_none_eq (inc acc : Buf) (n : Nat) :
    readUntil inc acc none n = readUntil inc acc (some (0, 0)) n := by
  cases inc with
  | nil => rfl
  | cons c rest => rfl

/-! ## Properties of the suspending receive loop -/

theorem readChunks_error :
    ∀ (chunks : List Buf) (acc : Buf) (st : Option (Nat × Nat)) (n : Nat) (bs : Buf),
      readChunks chunks acc st n = .error bs → bs = acc ++ chunks.flatten := by
  intro chunks
  induction chunks with
  | nil =>
    intro acc st n bs h
    rw [readChunks] at h
    injection h with h
    rw [← h]; simp
  | cons ch rest ih =>
    intro acc st n bs h
    rw [readChunks] at h
    by_cases hcond : n ≤ (_subsequence_count (acc ++ ch) EOL st).2
    · rw [if_pos hcond] at h
      exact Except.noConfusion h
    · rw [if_neg hcond] at h
      rw [ih (acc ++ ch) _ n bs h]
      simp

theorem readChunks_timeout {n : Nat} :
    ∀ (chunks : List Buf) (acc : Buf), countEOL (acc ++ chunks.flatten) < n →
      readChunks chunks acc (some (_subsequence_count acc EOL none)) n =
        .error (acc ++ chunks.flatten) := by
  intro chunks
  induction chunks with
  | nil =>
    intro acc hacc
    rw [readChunks]
    simp
  | cons ch rest ih =>
    intro acc hacc
    rw [readChunks, subseq_resume EOL_ne_nil acc ch]
    have hps : acc ++ ch <+: acc ++ (ch :: rest).flatten := ⟨rest.flatten, by simp⟩
    have hc2 : countEOL (acc ++ ch) < n := lt_of_le_of_lt (countEOL_mono hps) hacc
    have hc2' : ¬ n ≤ (_subsequence_count (acc ++ ch) EOL none).2 := not_le.mpr hc2
    rw [if_neg hc2']
    rw [ih (acc ++ ch) (by simpa using hacc)]
    simp

theorem readChunks_none_eq (chunks : List Buf) (acc : Buf) (n : Nat) :
    readChunks chunks acc none n = readChunks chunks acc (some (0, 0)) n := by
  cases chunks with
  | nil => rfl
  | cons ch rest => rfl

/-! ## Properties of the replayed set-command sequences -/

theorem runSets_spec :
    ∀ (rs : List Buf) (inc : Buf),
      ((runSets rs inc).2 = .ok () → (runSets rs inc).1 = rs) ∧
      (∀ e, (runSets rs inc).2 = .error e →
        ∃ k, k < rs.length ∧ (runSets rs inc).1 = rs.take (k + 1)) := by
  intro rs
  induction rs with
  | nil =>
    intro inc
    refine ⟨fun _ => rfl, fun e he => ?_⟩
    rw [runSets] at he
    exact Except.noConfusion he
  | cons r rest ih =>
    intro inc
    rw [runSets]
    cases hr : readUntil inc [] none 1 with
    | error e0 =>
      refine ⟨fun hok => ?_, fun e he => ⟨0, by simp, by simp⟩⟩
      exact Except.noConfusion hok
    | ok pr =>
      constructor
      · intro hok
        show r :: (runSets rest pr.2).1 = r :: rest
        rw [(ih pr.2).1 hok]
      · intro e he
        obtain ⟨k, hk, hsent⟩ := (ih pr.2).2 e he
        refine ⟨k + 1, by simpa using hk, ?_⟩
        show r :: (runSets rest pr.2).1 = (r :: rest).take (k + 1 + 1)
        rw [hsent, List.take_succ_cons]

theorem runSetsAsync_spec :
    ∀ (rs : List Buf) (chunks : List Buf),
      ((runSetsAsync rs chunks).2 = .ok () → (runSetsAsync rs chunks).1 = rs) ∧
      (∀ e, (runSetsAsync rs chunks).2 = .error e →
        ∃ k, k < rs.length ∧ (runSetsAsync rs chunks).1 = rs.take (k + 1)) := by
  intro rs
  induction rs with
  | nil =>
    intro chunks
    refine ⟨fun _ => rfl, fun e he => ?_⟩
    rw [runSetsAsync] at he
    exact Except.noConfusion he
  | cons r rest ih =>
    intro chunks
    rw [runSetsAsync]
    cases hr : readChunks chunks [] none 1 with
    | error e0 =>
      refine ⟨fun hok => ?_, fun e he => ⟨0, by simp, by simp⟩⟩
      exact Except.noConfusion hok
    | ok pr =>
      constructor
      · intro hok
        show r :: (runSetsAsync rest pr.2).1 = r :: rest
        rw [(ih pr.2).1 hok]
      · intro e he
        obtain ⟨k, hk, hsent⟩ := (ih pr.2).2 e he
        refine ⟨k + 1, by simpa using hk, ?_⟩
        show r :: (runSetsAsync rest pr.2).1 = (r :: rest).take (k + 1 + 1)
        rw [hsent, List.take_succ_cons]

/-! ## Properties of the status decoder -/

theorem digitVal_ofNat : ∀ d : Nat, d < 10 → digitVal (Char.ofNat (48 + d)) = some d := by
  decide

theorem twoDigit_digits2 {n : Nat} (h : n < 100) (r : Buf) :
    twoDigit (digits2 n ++ r) = some (n, r) := by
  have h1 : digitVal (Char.ofNat (48 + n / 10)) = some (n / 10) :=
    digitVal_ofNat _ (by omega)
  have h2 : digitVal (Char.ofNat (48 + n % 10)) = some (n % 10) :=
    digitVal_ofNat _ (by omega)
  show twoDigit (Char.ofNat (48 + n / 10) :: Char.ofNat (48 + n % 10) :: r) = some (n, r)
  rw [twoDigit, h1, h2]
  show some (n / 10 * 10 + n % 10, r) = some (n, r)
  have hn : n / 10 * 10 + n % 10 = n := by omega
  rw [hn]

theorem searchZone_isSome :
    ∀ s : Buf, (searchZone s).isSome = true ↔
      ∃ i, (matchZoneAt (s.drop i)).isSome = true := by
  intro s
  induction s with
  | nil => simp [searchZone, matchZoneAt]
  | cons c rest ih =>
    rw [searchZone]
    cases hm : matchZoneAt (c :: rest) with
    | some z =>
      simp only [Option.isSome_some, true_iff]
      exact ⟨0, by rw [List.drop_zero, hm]; rfl⟩
    | none =>
      rw [ih]
      constructor
      · rintro ⟨i, hi⟩
        exact ⟨i + 1, by simpa using hi⟩
      · rintro ⟨i, hi⟩
        cases i with
        | zero =>
          rw [List.drop_zero, hm] at hi
          exact Bool.noConfusion hi
        | succ j => exact ⟨j, by simpa using hi⟩

theorem from_string_isSome (s : Buf) :
    (from_string s).isSome = true ↔ ∃ i, (matchZoneAt (s.drop i)).isSome = true := by
  cases s with
  | nil => simp [from_string, matchZoneAt]
  | cons c rest =>
    rw [from_string, if_neg (by simp)]
    exact searchZone_isSome (c :: rest)

theorem matchZoneAt_zoneLine {g1 g2 g3 g4 g5 g6 g7 g8 g9 g10 g11 : Nat}
    (h1 : g1 < 100) (h2 : g2 < 100) (h3 : g3 < 100) (h4 : g4 < 100) (h5 : g5 < 100)
    (h6 : g6 < 100) (h7 : g7 < 100) (h8 : g8 < 100) (h9 : g9 < 100) (h10 : g10 < 100)
    (h11 : g11 < 100) (r : Buf) :
    matchZoneAt (zoneLine g1 g2 g3 g4 g5 g6 g7 g8 g9 g10 g11 r) =
      some (ZoneStatus.mk (Int.ofNat g1) (g2 != 0) (g3 != 0) (g4 != 0) (g5 != 0)
        (Int.ofNat g6) (Int.ofNat g7) (Int.ofNat g8) (Int.ofNat g9) (Int.ofNat g10)
        (g11 != 0)) := by
  rw [zoneLine, matchZoneAt, if_pos rfl]
  simp only [twoDigit_digits2 h1, twoDigit_digits2 h2, twoDigit_digits2 h3,
    twoDigit_digits2 h4, twoDigit_digits2 h5, twoDigit_digits2 h6, twoDigit_digits2 h7,
    twoDigit_digits2 h8, twoDigit_digits2 h9, twoDigit_digits2 h10, twoDigit_digits2 h11,
    Option.some_bind, Option.map_some']

theorem from_string_zoneLine {g1 g2 g3 g4 g5 g6 g7 g8 g9 g10 g11 : Nat}
    (h1 : g1 < 100) (h2 : g2 < 100) (h3 : g3 < 100) (h4 : g4 < 100) (h5 : g5 < 100)
    (h6 : g6 < 100) (h7 : g7 < 100) (h8 : g8 < 100) (h9 : g9 < 100) (h10 : g10 < 100)
    (h11 : g11 < 100) (r : Buf) :
    from_string (zoneLine g1 g2 g3 g4 g5 g6 g7 g8 g9 g10 g11 r) =
      some (ZoneStatus.mk (Int.ofNat g1) (g2 != 0) (g3 != 0) (g4 != 0) (g5 != 0)
        (Int.ofNat g6) (Int.ofNat g7) (Int.ofNat g8) (Int.ofNat g9) (Int.ofNat g10)
        (g11 != 0)) := by
  have hm := matchZoneAt_zoneLine h1 h2 h3 h4 h5 h6 h7 h8 h9 h10 h11 r
  rw [from_string, if_neg (by rw [zoneLine]; simp), zoneLine, searchZone]
  rw [zoneLine] at hm
  rw [hm]

/-! ## Properties of the command encoder -/

theorem pad2_two_digits :
    ∀ n : Nat, n < 100 → (pad2 n).length = 2 ∧ (pad2 n).all Char.isDigit = true := by
  decide

theorem clamp0_toNat_le (v : Int) (hi : Nat) : (max 0 (min v (hi : Int))).toNat ≤ hi :=
  Int.toNat_le.mpr (max_le (Int.ofNat_nonneg hi) (min_le_right _ _))

theorem clamp1_toNat_le (v : Int) (hi : Nat) (h : 1 ≤ (hi : Int)) :
    (max 1 (min v (hi : Int))).toNat ≤ hi :=
  Int.toNat_le.mpr (max_le h (min_le_right _ _))

/-! ## Claim theorems -/

/-- C1: for every integer zone and value, the encoded set-volume request
carries `max 0 (min v 38)` rendered as exactly two decimal digits, and the
analogous clamp laws hold for treble and bass (0–14), balance (0–20) and
source (1–6, floor 1). -/
theorem c1_set_commands_clamp (zone v : Int) :
    (_format_set_volume zone v =
        '<' :: intChars zone ++ ['V', 'O'] ++ pad2 (max 0 (min v 38)).toNat ++ ['\r'] ∧
      (pad2 (max 0 (min v 38)).toNat).length = 2 ∧
      (pad2 (max 0 (min v 38)).toNat).all Char.isDigit = true) ∧
    (_format_set_treble zone v =
        '<' :: intChars zone ++ ['T', 'R'] ++ pad2 (max 0 (min v 14)).toNat ++ ['\r'] ∧
      (pad2 (max 0 (min v 14)).toNat).length = 2 ∧
      (pad2 (max 0 (min v 14)).toNat).all Char.isDigit = true) ∧
    (_format_set_bass zone v =
        '<' :: intChars zone ++ ['B', 'S'] ++ pad2 (max 0 (min v 14)).toNat ++ ['\r'] ∧
      (pad2 (max 0 (min v 14)).toNat).length = 2 ∧
      (pad2 (max 0 (min v 14)).toNat).all Char.isDigit = true) ∧
    (_format_set_balance zone v =
        '<' :: intChars zone ++ ['B', 'L'] ++ pad2 (max 0 (min v 20)).toNat ++ ['\r'] ∧
      (pad2 (max 0 (min v 20)).toNat).length = 2 ∧
      (pad2 (max 0 (min v 20)).toNat).all Char.isDigit = true) ∧
    (_format_set_source zone v =
        '<' :: intChars zone ++ ['C', 'H'] ++ pad2 (max 1 (min v 6)).toNat ++ ['\r'] ∧
      (pad2 (max 1 (min v 6)).toNat).length = 2 ∧
      (pad2 (max 1 (min v 6)).toNat).all Char.isDigit = true) := by
  refine ⟨⟨rfl, ?_, ?_⟩, ⟨rfl, ?_, ?_⟩, ⟨rfl, ?_, ?_⟩, ⟨rfl, ?_, ?_⟩, ⟨rfl, ?_, ?_⟩⟩
  all_goals first
    | exact (pad2_two_digits _ (by omega)).1
    | exact (pad2_two_digits _ (by omega)).2

/-- C2 as stated is false: with no prior state, counting the marker
`"\r\r"` in `"\r\r\r"` yields count 1 (the scan resumes after the end of a
found occurrence), not the 2 overlapping occurrences the claim predicts. -/
theorem c2_overlap_counterexample :
    _subsequence_count ['\r', '\r', '\r'] ['\r', '\r'] none = (2, 1) ∧
      ¬ (_subsequence_count ['\r', '\r', '\r'] ['\r', '\r'] none).2 = 2 := by
  decide

/-- C2 amended: for every buffer, marker and scan state, occurrences within
an append are counted left to right without overlap: when the (nonempty)
marker has no occurrence at or after the scan offset the state is returned
unchanged, and otherwise its leftmost such occurrence `idx` is counted
exactly once and the scan resumes at `idx + sub.length`, the end of that
occurrence — so `"\r\r"` occurs once in `"\r\r\r"`, twice in `"\r\r\r\r"`,
and the real three-byte marker is counted at every (necessarily disjoint)
occurrence. -/
theorem c2_nonoverlapping_count :
    (∀ (sequence sub : Buf) (start count : Nat), sub ≠ [] →
      (bfind sequence sub start = none →
        _subsequence_count sequence sub (some (start, count)) = (start, count)) ∧
      (∀ idx, bfind sequence sub start = some idx →
        _subsequence_count sequence sub (some (start, count)) =
          _subsequence_count sequence sub (some (idx + sub.length, count + 1)))) ∧
    _subsequence_count ['\r', '\r', '\r'] ['\r', '\r'] none = (2, 1) ∧
    _subsequence_count ['\r', '\r', '\r', '\r'] ['\r', '\r'] none = (4, 2) ∧
    _subsequence_count (EOL ++ EOL ++ EOL) EOL none = (9, 3) := by
  refine ⟨?_, by decide, by decide, by decide⟩
  intro sequence sub start count hsub
  constructor
  · intro hb
    show scLoop sequence sub (sequence.length + 1) start count = (start, count)
    conv_lhs => rw [scLoop, hb]
  · intro idx hb
    have hbd := bfind_bounds hsub hb
    have hpos : 0 < sub.length := List.length_pos.mpr hsub
    show scLoop sequence sub (sequence.length + 1) start count =
      scLoop sequence sub (sequence.length + 1) (idx + sub.length) (count + 1)
    have hstep : scLoop sequence sub (sequence.length + 1) start count =
        scLoop sequence sub sequence.length (idx + sub.length) (count + 1) := by
      rw [scLoop, hb]
    rw [hstep]
    exact (scLoop_fuel_succ hsub sequence.length (idx + sub.length) (count + 1) (by omega)).symm

/-- C2 witness: in `"\r\r\r"` the leftmost `"\r\r"` occurrence is at offset
0; it is counted once and the scan resumes at offset 2, its end. -/
theorem c2_nonoverlapping_witness :
    _subsequence_count ['\r', '\r', '\r'] ['\r', '\r'] (some (0, 0)) =
      _subsequence_count ['\r', '\r', '\r'] ['\r', '\r'] (some (2, 1)) :=
  (c2_nonoverlapping_count.1 ['\r', '\r', '\r'] ['\r', '\r'] 0 0 (by decide)).2
    0 (by decide)

/-- C3: marker counting is incrementally resumable and never double-counts:
resuming on a grown buffer from the state returned over a prefix gives the
same answer as a fresh scan, the resumed count only adds matches found from
the stored offset on, and the concrete `"\r\r\r"`-then-`"\r"` example counts
1 then 2. -/
theorem c3_resumable_no_double_count :
    (∀ (sub pre ext : Buf), sub ≠ [] →
      _subsequence_count (pre ++ ext) sub (some (_subsequence_count pre sub none)) =
        _subsequence_count (pre ++ ext) sub none) ∧
    (∀ (sequence sub : Buf) (o c : Nat),
      _subsequence_count sequence sub (some (o, c)) =
        ((_subsequence_count sequence sub (some (o, 0))).1,
          (_subsequence_count sequence sub (some (o, 0))).2 + c)) ∧
    _subsequence_count ['\r', '\r', '\r'] ['\r', '\r'] none = (2, 1) ∧
    _subsequence_count (['\r', '\r', '\r'] ++ ['\r']) ['\r', '\r'] (some (2, 1)) = (4, 2) := by
  refine ⟨fun sub pre ext hsub => subseq_resume hsub pre ext, ?_, by decide, by decide⟩
  intro sequence sub o c
  have h := @scLoop_count_add sequence sub (sequence.length + 1) o 0 c
  rw [Nat.zero_add] at h
  exact h

/-- C3 witness: the resumption law at a concrete split of `"\r\r\r"`. -/
theorem c3_resumable_witness :
    _subsequence_count (['\r'] ++ ['\r', '\r']) ['\r', '\r']
        (some (_subsequence_count ['\r'] ['\r', '\r'] none)) =
      _subsequence_count (['\r'] ++ ['\r', '\r']) ['\r', '\r'] none :=
  c3_resumable_no_double_count.1 ['\r', '\r'] ['\r'] ['\r', '\r'] (by decide)

/-- C4: single-status parsing yields no `ZoneStatus` at all on empty input,
and succeeds exactly when some position of the input starts a full match of
the eleven-two-digit-group pattern — so any non-digit inside a slot kills
the candidate, while surrounding noise is tolerated by searching anywhere. -/
theorem c4_from_string_failure_modes :
    from_string [] = none ∧
    (∀ s : Buf, (from_string s).isSome = true ↔
      ∃ i, (matchZoneAt (s.drop i)).isSome = true) ∧
    from_string (String.toList ">110001000013111210040x") = none ∧
    from_string (String.toList "\r\n#>1100010000131112100401\r\n#") =
      some (ZoneStatus.mk 11 false true false false 13 11 12 10 4 true) := by
  exact ⟨rfl, from_string_isSome, by decide, by decide⟩

/-- C5: bulk parsing returns exactly the successful parses, in input order
(it is `filterMap` of the single-line parser), e.g. noise–valid–noise input
yields the one decoded zone. -/
theorem c5_from_strings_order :
    (∀ strings : List Buf, from_strings strings = strings.filterMap from_string) ∧
    from_strings [String.toList "aaa", String.toList ">1100010000131112100401",
        String.toList "ccc"] =
      [ZoneStatus.mk 11 false true false false 13 11 12 10 4 true] := by
  constructor
  · intro strings
    cases strings with
    | nil => rfl
    | cons s rest => rw [from_strings, if_neg (by simp)]
  · decide

/-- C6: a unit code outside 1..3 makes the bulk status operation return an
empty list with no request written to the wire and no error raised, in both
the blocking and the suspending session. -/
theorem c6_all_zone_status_unit_guard (unit : Int) (incoming : Buf) (chunks : List Buf)
    (h : unit < 1 ∨ 3 < unit) :
    Monoprice.all_zone_status unit incoming = ([], .ok []) ∧
    MonopriceAsync.all_zone_status unit chunks = ([], .ok []) := by
  constructor
  · rw [Monoprice.all_zone_status, if_pos h]
  · rw [MonopriceAsync.all_zone_status, if_pos h]

/-- C6 witness: unit 4 is rejected softly in both sessions. -/
theorem c6_unit_guard_witness :
    Monoprice.all_zone_status 4 [] = ([], .ok []) ∧
    MonopriceAsync.all_zone_status 4 [] = ([], .ok []) :=
  c6_all_zone_status_unit_guard 4 [] [] (by omega)

/-- C7: restore-zone replays exactly the seven set requests in the fixed
order power, mute, volume, treble, bass, balance, source; on success all
seven are issued, and a timeout in one sub-step issues no later request and
propagates the failure, in both the blocking and the suspending session. -/
theorem c7_restore_zone_sequence (status : ZoneStatus) (incoming : Buf) (chunks : List Buf) :
    ((Monoprice.restore_zone status incoming).2 = .ok () →
      (Monoprice.restore_zone status incoming).1 =
        [_format_set_power status.zone status.power,
         _format_set_mute status.zone status.mute,
         _format_set_volume status.zone status.volume,
         _format_set_treble status.zone status.treble,
         _format_set_bass status.zone status.bass,
         _format_set_balance status.zone status.balance,
         _format_set_source status.zone status.source]) ∧
    (∀ e, (Monoprice.restore_zone status incoming).2 = .error e →
      ∃ k, k < 7 ∧ (Monoprice.restore_zone status incoming).1 =
        ([_format_set_power status.zone status.power,
          _format_set_mute status.zone status.mute,
          _format_set_volume status.zone status.volume,
          _format_set_treble status.zone status.treble,
          _format_set_bass status.zone status.bass,
          _format_set_balance status.zone status.balance,
          _format_set_source status.zone status.source]).take (k + 1)) ∧
    ((MonopriceAsync.restore_zone status chunks).2 = .ok () →
      (MonopriceAsync.restore_zone status chunks).1 =
        [_format_set_power status.zone status.power,
         _format_set_mute status.zone status.mute,
         _format_set_volume status.zone status.volume,
         _format_set_treble status.zone status.treble,
         _format_set_bass status.zone status.bass,
         _format_set_balance status.zone status.balance,
         _format_set_source status.zone status.source]) ∧
    (∀ e, (MonopriceAsync.restore_zone status chunks).2 = .error e →
      ∃ k, k < 7 ∧ (MonopriceAsync.restore_zone status chunks).1 =
        ([_format_set_power status.zone status.power,
          _format_set_mute status.zone status.mute,
          _format_set_volume status.zone status.volume,
          _format_set_treble status.zone status.treble,
          _format_set_bass status.zone status.bass,
          _format_set_balance status.zone status.balance,
          _format_set_source status.zone status.source]).take (k + 1)) := by
  refine ⟨?_, ?_, ?_, ?_⟩
  · exact (runSets_spec (restoreRequests status) incoming).1
  · intro e he
    obtain ⟨k, hk, hs⟩ := (runSets_spec (restoreRequests status) incoming).2 e he
    exact ⟨k, hk, hs⟩
  · exact (runSetsAsync_spec (restoreRequests status) chunks).1
  · intro e he
    obtain ⟨k, hk, hs⟩ := (runSetsAsync_spec (restoreRequests status) chunks).2 e he
    exact ⟨k, hk, hs⟩

/-- C7 witness: with seven full frames on the wire, all seven requests are
issued in order for a concrete snapshot. -/
theorem c7_restore_zone_witness :
    (Monoprice.restore_zone (ZoneStatus.mk 11 false true false false 13 11 12 10 4 true)
        (EOL ++ EOL ++ EOL ++ EOL ++ EOL ++ EOL ++ EOL)).1 =
      [_format_set_power 11 true, _format_set_mute 11 false, _format_set_volume 11 13,
       _format_set_treble 11 11, _format_set_bass 11 12, _format_set_balance 11 10,
       _format_set_source 11 4] :=
  (c7_restore_zone_sequence (ZoneStatus.mk 11 false true false false 13 11 12 10 4 true)
      (EOL ++ EOL ++ EOL ++ EOL ++ EOL ++ EOL ++ EOL) []).1 (by rfl)

/-- C8 as stated is false for the suspending session: the raised timeout
error is the bare `asyncio.TimeoutError`, identical whether a byte was
received or none was, so the error itself cannot include the bytes received
so far (those only reach the diagnostic log). -/
theorem c8_async_error_counterexample :
    (MonopriceProtocol.send ['?'] [['x']] 1).2 = .error () ∧
    (MonopriceProtocol.send ['?'] [] 1).2 = .error () ∧
    (MonopriceProtocol.send ['?'] [['x']] 1).2 = (MonopriceProtocol.send ['?'] [] 1).2 ∧
    (MonopriceProtocol.send ['?'] [['x']] 1).1 ≠ (MonopriceProtocol.send ['?'] [] 1).1 := by
  refine ⟨rfl, rfl, rfl, ?_⟩
  decide

/-- C8 amended: a read that cannot complete within the timeout fails with
the distinguished timeout error; the blocking session's error carries the
bytes received so far, while the suspending session re-raises the bare
timeout error after logging the request together with the bytes received so
far for diagnostics. -/
theorem c8_timeout_diagnostics (n : Nat) (incoming : Buf) (chunks : List Buf) :
    (∀ bs, readUntil incoming [] none n = .error bs → bs = incoming) ∧
    (countEOL incoming < n → readUntil incoming [] none n = .error incoming) ∧
    (∀ request, countEOL chunks.flatten < n →
      MonopriceProtocol.send request chunks n =
        ([(request, chunks.flatten)], .error ())) := by
  refine ⟨?_, ?_, ?_⟩
  · intro bs h
    have hb := readUntil_error incoming [] none n bs h
    simpa using hb
  · intro hc
    rw [readUntil_none_eq]
    have ht := readUntil_timeout incoming [] (by simpa using hc)
    rw [List.nil_append] at ht
    exact ht
  · intro request hc
    have ht := readChunks_timeout chunks [] (by simpa using hc)
    rw [List.nil_append] at ht
    have ht' : readChunks chunks [] (some (0, 0)) n = .error chunks.flatten := ht
    rw [MonopriceProtocol.send, readChunks_none_eq, ht']

/-- C8 witness: one byte then silence times out; the blocking error carries
the byte, the suspending session logs it and raises the bare timeout. -/
theorem c8_timeout_witness :
    readUntil ['x'] [] none 1 = .error ['x'] ∧
    MonopriceProtocol.send ['?'] [['x']] 1 = ([(['?'], ['x'])], .error ()) := by
  constructor
  · exact (c8_timeout_diagnostics 1 ['x'] [['x']]).2.1 (by decide)
  · have h := (c8_timeout_diagnostics 1 ['x'] [['x']]).2.2 ['?'] (by decide)
    simpa using h

/-- C9: the receive loop stops at the first prefix of the wire bytes whose
marker count reaches the request's threshold, and the threshold is fixed by
the request type: 2 for a single-zone status query, 7 for a whole-unit
status query, 1 for every set command and restore sub-step. -/
theorem c9_marker_thresholds (incoming : Buf) :
    (∀ n resp rest, 1 ≤ n → readUntil incoming [] none n = .ok (resp, rest) →
      resp ++ rest = incoming ∧ n ≤ countEOL resp ∧
        ∀ p, p <+: resp → p ≠ resp → countEOL p < n) ∧
    (∀ zone, (Monoprice.zone_status zone incoming).2 =
      (readUntil incoming [] none 2).map fun pr => from_string pr.1) ∧
    (∀ unit, 1 ≤ unit → unit ≤ 3 →
      (Monoprice.all_zone_status unit incoming).2 =
        (readUntil incoming [] none 7).map fun pr =>
          from_strings (splitOnList pr.1 EOL)) ∧
    (∀ zone power, (Monoprice.set_power zone power incoming).2 =
      (readUntil incoming [] none 1).map fun pr => pr.2) ∧
    (∀ zone mute, (Monoprice.set_mute zone mute incoming).2 =
      (readUntil incoming [] none 1).map fun pr => pr.2) ∧
    (∀ zone volume, (Monoprice.set_volume zone volume incoming).2 =
      (readUntil incoming [] none 1).map fun pr => pr.2) ∧
    (∀ zone treble, (Monoprice.set_treble zone treble incoming).2 =
      (readUntil incoming [] none 1).map fun pr => pr.2) ∧
    (∀ zone bass, (Monoprice.set_bass zone bass incoming).2 =
      (readUntil incoming [] none 1).map fun pr => pr.2) ∧
    (∀ zone balance, (Monoprice.set_balance zone balance incoming).2 =
      (readUntil incoming [] none 1).map fun pr => pr.2) ∧
    (∀ zone source, (Monoprice.set_source zone source incoming).2 =
      (readUntil incoming [] none 1).map fun pr => pr.2) ∧
    (∀ status, Monoprice.restore_zone status incoming =
      runSets (restoreRequests status) incoming) := by
  refine ⟨?_, fun zone => rfl, fun unit h1 h2 => ?_, fun zone power => rfl,
    fun zone mute => rfl, fun zone volume => rfl, fun zone treble => rfl,
    fun zone bass => rfl, fun zone balance => rfl, fun zone source => rfl,
    fun status => rfl⟩
  · intro n resp rest hn h
    rw [readUntil_none_eq] at h
    have h' : readUntil incoming [] (some (_subsequence_count [] EOL none)) n =
        .ok (resp, rest) := h
    have h0 : countEOL [] < n := by
      have : countEOL [] = 0 := rfl
      omega
    obtain ⟨_, heq, hcount, hmin⟩ := readUntil_ok incoming [] h0 resp rest h'
    exact ⟨by simpa using heq, hcount, hmin⟩
  · rw [Monoprice.all_zone_status, if_neg (by omega)]

/-- C9 witness: a whole-unit query on a valid unit uses threshold 7, and at
threshold 2 the loop consumed exactly two frames, a one-frame prefix having
count below 2. -/
theorem c9_marker_thresholds_witness :
    ((Monoprice.all_zone_status 2 (EOL ++ EOL)).2 =
      (readUntil (EOL ++ EOL) [] none 7).map fun pr =>
        from_strings (splitOnList pr.1 EOL)) ∧
    countEOL EOL < 2 := by
  constructor
  · exact (c9_marker_thresholds (EOL ++ EOL)).2.2.1 2 (by omega) (by omega)
  · exact ((c9_marker_thresholds (EOL ++ EOL)).1 2 (EOL ++ EOL) [] (by omega)
      (by rfl)).2.2 EOL ⟨EOL, rfl⟩ (by decide)

/-- C10: single-status parsing does not validate field ranges: any eleven
two-digit groups after `>` parse successfully into a `ZoneStatus` whose
fields are the decoded decimal values unchanged, even out-of-range ones
such as volume 99 or source 0. -/
theorem c10_no_range_validation (g1 g2 g3 g4 g5 g6 g7 g8 g9 g10 g11 : Nat) (r : Buf)
    (h1 : g1 < 100) (h2 : g2 < 100) (h3 : g3 < 100) (h4 : g4 < 100) (h5 : g5 < 100)
    (h6 : g6 < 100) (h7 : g7 < 100) (h8 : g8 < 100) (h9 : g9 < 100) (h10 : g10 < 100)
    (h11 : g11 < 100) :
    from_string (zoneLine g1 g2 g3 g4 g5 g6 g7 g8 g9 g10 g11 r) =
      some (ZoneStatus.mk (Int.ofNat g1) (g2 != 0) (g3 != 0) (g4 != 0) (g5 != 0)
        (Int.ofNat g6) (Int.ofNat g7) (Int.ofNat g8) (Int.ofNat g9) (Int.ofNat g10)
        (g11 != 0)) :=
  from_string_zoneLine h1 h2 h3 h4 h5 h6 h7 h8 h9 h10 h11 r

/-- C10 witness: volume 99 and source 0 are accepted and returned as-is. -/
theorem c10_no_range_validation_witness :
    from_string (zoneLine 11 0 1 0 0 99 7 7 10 0 1 []) =
      some (ZoneStatus.mk 11 false true false false 99 7 7 10 0 true) :=
  c10_no_range_validation 11 0 1 0 0 99 7 7 10 0 1 []
    (by decide) (by decide) (by decide) (by decide) (by decide) (by decide)
    (by decide) (by decide) (by decide) (by decide) (by decide)
